import Mathlib

/-!
A verification development for the arithmetic and constraint-system core of a
PLONK/Halo-style SNARK toolkit.  The Rust sources are embedded shallowly:
`u64`/`u128` limbs become `Nat` with explicit `% 2 ^ 64` where a cast or a
wrapping operation occurs, fixed-size limb arrays become index maps `ℕ → ℕ`,
fallible operations return `Option`, and the unbounded rejection loop of
hash-to-curve is instrumented with explicit fuel.  External collaborators
(the sponge hash, the circuit builder's combinator surface, the partial
witness map) are modelled from the specification's words and marked as such
in their doc comments.
-/

namespace Plonky

/-- The limb base: `2 ^ 64`, the number of values of a `u64`. -/
def B64 : ℕ := 2 ^ 64

/-- Point update of an index map, modelling `array[k] = v`. -/
def upd (f : ℕ → ℕ) (k v : ℕ) : ℕ → ℕ := fun n => if n = k then v else f n

/-- The integer a little-endian array of `n` 64-bit limbs denotes. -/
def limbsVal (n : ℕ) (f : ℕ → ℕ) : ℕ := ∑ k ∈ Finset.range n, f k * B64 ^ k

/-- The unweighted total of the first `n` entries of an accumulator. -/
def totSum (n : ℕ) (f : ℕ → ℕ) : ℕ := ∑ k ∈ Finset.range n, f k

/-- `Bool.toNat`, written out to mirror Rust's `carry as u64`. -/
def b2n (b : Bool) : ℕ := if b then 1 else 0

/-- One inner-loop step of `mul_6_6`'s grade-school phase (field.rs lines
86-90): the 128-bit product `a[i] * b[j]` is split and both chunks are
accumulated with `+=`.  The `u128` accumulators cannot overflow (each slot
receives at most 12 summands below `2 ^ 64`, proved below), so they are
plain naturals. -/
def mulRowStep (a b : ℕ → ℕ) (i : ℕ) (acc : ℕ → ℕ) (j : ℕ) : ℕ → ℕ :=
  let a_i_b_j := a i * b j
  let acc1 := upd acc (i + j) (acc (i + j) + a_i_b_j % B64)
  upd acc1 (i + j + 1) (acc1 (i + j + 1) + a_i_b_j / B64)

/-- The `acc128` array after `mul_6_6`'s double loop (field.rs lines 82-92). -/
def mul_6_6_acc128 (a b : ℕ → ℕ) : ℕ → ℕ :=
  (List.range 6).foldl (fun acc i => (List.range 6).foldl (mulRowStep a b i) acc)
    (fun _ => 0)

/-- One step of `mul_6_6`'s carry-propagation loop (field.rs lines 97-106).
`(acc128[i-1] >> 64) as u64` is `/ B64` (a `u128` shift by 64 is in range)
then `% B64` for the cast; `overflowing_add` yields the wrapped sum and the
carry-out bit; `acc[i] += result.0` adds to a slot that is still zero. -/
def carryStep (acc128 : ℕ → ℕ) (s : (ℕ → ℕ) × Bool) (i : ℕ) : (ℕ → ℕ) × Bool :=
  let last_chunk_big := acc128 (i - 1) / B64 % B64
  let curr_chunk_small := acc128 i % B64
  let addend := (last_chunk_big + b2n s.2) % B64
  let sum := curr_chunk_small + addend
  (upd s.1 i ((s.1 i + sum % B64) % B64), decide (B64 ≤ sum))

/-- The final `(acc, carry)` state of `mul_6_6` just before its
`assert!(!carry)` (field.rs lines 94-107). -/
def mul_6_6_raw (a b : ℕ → ℕ) : (ℕ → ℕ) × Bool :=
  let acc128 := mul_6_6_acc128 a b
  (List.range' 1 11).foldl (carryStep acc128)
    (upd (fun _ => 0) 0 (acc128 0 % B64), false)

/-- `mul_6_6` (field.rs lines 80-109): widening 6x6-limb multiplication.
`none` models the `assert!(!carry)` panic. -/
def mul_6_6 (a b : ℕ → ℕ) : Option (ℕ → ℕ) :=
  let r := mul_6_6_raw a b
  if r.2 then none else some r.1

/-- One inner-loop step of `mul_12_6`'s grade-school phase (field.rs lines
117-121).  Faithful to the source bug: line 121 writes the high chunk with
`=` (overwriting the slot) instead of `+=`. -/
def mul12RowStep (a b : ℕ → ℕ) (i : ℕ) (acc : ℕ → ℕ) (j : ℕ) : ℕ → ℕ :=
  let a_i_b_j := a i * b j
  let acc1 := upd acc (i + j) (acc (i + j) + a_i_b_j % B64)
  upd acc1 (i + j + 1) (a_i_b_j / B64)

/-- The `acc128` array after `mul_12_6`'s double loop (field.rs lines 113-123). -/
def mul_12_6_acc128 (a b : ℕ → ℕ) : ℕ → ℕ :=
  (List.range 12).foldl (fun acc i => (List.range 6).foldl (mul12RowStep a b i) acc)
    (fun _ => 0)

/-- A `u64` right shift: defined only for shift amounts below the 64-bit
width; `x >> 64` on a `u64` is an arithmetic-overflow error in Rust (a
deny-by-default compile error for the constant amount 64, a panic under
checked arithmetic), modelled as `none`. -/
def shrU64 (x n : ℕ) : Option ℕ := if n < 64 then some (x / 2 ^ n) else none

/-- One step of `mul_12_6`'s carry loop (field.rs lines 128-136).  Faithful
to the source bug: the loop reads `acc` (the `u64` output array) instead of
`acc128`, so `acc[i - 1] >> 64` shifts a `u64` by its full width and fails;
`acc[i] as u64` likewise reads the output array. -/
def mul12CarryStep (s : Option ((ℕ → ℕ) × Bool)) (i : ℕ) : Option ((ℕ → ℕ) × Bool) :=
  s.bind fun st =>
    (shrU64 (st.1 (i - 1)) 64).bind fun shifted =>
      let last_chunk_big := shifted % B64
      let curr_chunk_small := st.1 i % B64
      let addend := (last_chunk_big + b2n st.2) % B64
      let sum := curr_chunk_small + addend
      some (upd st.1 i ((st.1 i + sum % B64) % B64), decide (B64 ≤ sum))

/-- `mul_12_6` (field.rs lines 111-139): intended widening 12x6-limb
multiplication.  Unlike `mul_6_6` it has no final carry assertion; the carry
bit is simply dropped. -/
def mul_12_6 (a b : ℕ → ℕ) : Option (ℕ → ℕ) :=
  let acc128 := mul_12_6_acc128 a b
  ((List.range' 1 17).foldl mul12CarryStep
      (some (upd (fun _ => 0) 0 (acc128 0 % B64), false))).map Prod.fst

namespace Bls12Base

/-- The order of the BLS12 base field, as 6 little-endian limbs
(field.rs lines 22-23). -/
def ORDER : ℕ → ℕ := fun k =>
  [13402431016077863595, 2210141511517208575, 7435674573564081700,
    7239337960414712511, 5412103778470702295, 1873798617647539866].getD k 0

/-- The precomputed Barrett factor (field.rs lines 26-27). -/
def BARRET_FACTOR : ℕ → ℕ := fun k =>
  [17027978386419893992, 5649138592172459777, 3421924034565217767,
    11848418460761227941, 4080332095855958760, 2837504485842123031].getD k 0

/-- The Barrett shift parameter (field.rs line 28). -/
def BARRET_K : ℕ := 381

/-- The quotient-estimate shift loop of `Bls12Base::mul` (field.rs lines
54-61), transcribed exactly: the body reads `product_r[shift_words]` and
`product_r[shift_words + 1]` without any dependence on the loop variable
`i`, `>>`/`<<` are `u64` shifts by the in-range amounts 58 and 6, and `|`
is bitwise or. -/
def shiftLoop (product_r : ℕ → ℕ) : ℕ → ℕ :=
  (List.range 6).foldl
    (fun out i =>
      let shift_total_bits := BARRET_K * 2
      let shift_words := shift_total_bits / 64
      let shift_bits := shift_total_bits % 64
      upd out i (Nat.lor (product_r shift_words / 2 ^ shift_bits)
        (product_r (shift_words + 1) * 2 ^ (64 - shift_bits) % B64)))
    (fun _ => 0)

end Bls12Base

/-- Where an invocation of `Bls12Base::mul` ends.  `ok` (the returned limb
values, read off the truncated result) is never produced by the embedded
code, because `sub_12x64` is `todo!()`; the other constructors mark the
failure points. -/
inductive MulOutcome where
  | ok : List ℕ → MulOutcome
  | mul66Panic : MulOutcome
  | mul126Panic : MulOutcome
  | subTodo : MulOutcome
deriving DecidableEq

/-- `Bls12Base::mul` (field.rs lines 45-73), step by step: the widening
product, the Barrett factor product, the shift loop, the quotient-times-order
product, then the call to the unimplemented `sub_12x64` (`todo!()`),
modelled as the outcome `subTodo`; the truncation and its assertions are
unreachable. -/
def Bls12Base.mul (a b : ℕ → ℕ) : MulOutcome :=
  match mul_6_6 a b with
  | none => .mul66Panic
  | some product =>
    match mul_12_6 product Bls12Base.BARRET_FACTOR with
    | none => .mul126Panic
    | some product_r =>
      let product_r_shifted := Bls12Base.shiftLoop product_r
      match mul_6_6 product_r_shifted Bls12Base.ORDER with
      | none => .mul66Panic
      | some _product_r_shifted_n => .subTodo

/-- The canonical field element 1 as 6 little-endian limbs. -/
def oneLimbs : ℕ → ℕ := fun k => if k = 0 then 1 else 0

/-- The 12-limb array holding the value 1. -/
def oneLimbs12 : ℕ → ℕ := fun k => if k = 0 then 1 else 0

/-- An 18-limb array whose only nonzero limb is limb 12 (the value
`2 ^ 768`), used to exercise the shift loop. -/
def limb12Unit : ℕ → ℕ := fun k => if k = 12 then 1 else 0

/-- The external collaborators hash-to-curve consumes, bundled.  Modelled
from the spec: the curve exposes its Weierstrass coefficients `A` and `B`;
the sponge, configured for two outputs at a fixed security level, maps the
two absorbed field elements to two output elements; `square_root` returns a
modular square root when one exists; `first_canonical_bit` is
`to_canonical_bool_vec()[0]`; `from_canonical_u32` injects a `u32`. -/
structure HashEnv (F : Type) where
  A : F
  Bcoeff : F
  sponge : F → F → F × F
  square_root : F → Option F
  first_canonical_bit : F → Bool
  from_canonical_u32 : ℕ → F

/-- One iteration of `hash_base_field_to_curve`'s loop body at counter `i`
(hash_to_curve.rs lines 15-29): sponge `(seed, i)`, read `x` and the sign
bit, form `x³ + A·x + B`, and return the point when a square root exists.
The counter register is a `u32`, so the sponge sees `i % 2 ^ 32`. -/
def hashStep {F : Type} [CommRing F] (env : HashEnv F) (seed : F) (i : ℕ) :
    Option (F × F) :=
  let outputs := env.sponge seed (env.from_canonical_u32 (i % 2 ^ 32))
  let x := outputs.1
  let y_neg := env.first_canonical_bit outputs.2
  let square_candidate := x ^ 3 + env.A * x + env.Bcoeff
  match env.square_root square_candidate with
  | some y => some (x, if y_neg then -y else y)
  | none => none

/-- `hash_base_field_to_curve` (hash_to_curve.rs lines 8-33), instrumented
with fuel (the loop itself is unbounded) and with the successful counter
value returned alongside the affine point. -/
def hash_base_field_to_curve {F : Type} [CommRing F] (env : HashEnv F)
    (seed : F) : ℕ → ℕ → Option (ℕ × F × F)
  | 0, _ => none
  | fuel + 1, i =>
    match hashStep env seed i with
    | some p => some (i, p.1, p.2)
    | none => hash_base_field_to_curve env seed fuel (i + 1)

/-- A symbolic target of the circuit builder.  Modelled from the spec: the
builder's arithmetic combinators build expressions over targets; a target
carries no value until a witness is evaluated, so a leaf holds the witness
value it will evaluate to. -/
inductive BTarget (F : Type) where
  | wit : F → BTarget F
  | add : BTarget F → BTarget F → BTarget F
  | sub : BTarget F → BTarget F → BTarget F
  | mul : BTarget F → BTarget F → BTarget F

/-- Witness evaluation of a built expression. -/
def BTarget.evalT {F : Type} [CommRing F] : BTarget F → F
  | .wit v => v
  | .add t u => t.evalT + u.evalT
  | .sub t u => t.evalT - u.evalT
  | .mul t u => t.evalT * u.evalT

namespace CircuitBuilder

/-- Modelled from the spec: the builder's `mul` combinator. -/
def mul {F : Type} (t u : BTarget F) : BTarget F := .mul t u

/-- Modelled from the spec: the builder's `sub` combinator. -/
def sub {F : Type} (t u : BTarget F) : BTarget F := .sub t u

/-- Modelled from the spec: the builder's `mul_many` combinator, the product
of a list of targets. -/
def mul_many {F : Type} [One F] : List (BTarget F) → BTarget F
  | [] => .wit 1
  | t :: ts => ts.foldl .mul t

/-- Modelled from the spec: the builder's `add_many` combinator, the sum of
a list of targets. -/
def add_many {F : Type} [Zero F] : List (BTarget F) → BTarget F
  | [] => .wit 0
  | t :: ts => ts.foldl .add t

end CircuitBuilder

/-- A wire position `(gate index, input index)` (the source's `Wire`). -/
structure Wire where
  gate : ℕ
  input : ℕ
deriving DecidableEq

/-- A target reference; `ArithmeticGate`'s dependencies use the `Wire`
variant (the source enum has further variants this development never
builds). -/
inductive Target where
  | wire : Wire → Target
deriving DecidableEq

/-- Modelled from the spec: a partial witness is a mapping from wire
references to field values, not necessarily total. -/
structure PartialWitness (F : Type) where
  get : Wire → Option F

/-- `PartialWitness::new`: the empty mapping. -/
def PartialWitness.new {F : Type} : PartialWitness F := ⟨fun _ => none⟩

/-- `PartialWitness::set_wire`. -/
def PartialWitness.set_wire {F : Type} (pw : PartialWitness F) (w : Wire)
    (v : F) : PartialWitness F :=
  ⟨fun w' => if w' = w then some v else pw.get w'⟩

/-- `PartialWitness::get_wire`; absence is the source's panic, so `none`. -/
def PartialWitness.get_wire {F : Type} (pw : PartialWitness F) (w : Wire) :
    Option F :=
  pw.get w

namespace ArithmeticGate

/-- The gate's selector prefix (arithmetic.rs line 33). -/
def PREFIX : List Bool := [true, false, false, true]

/-- Wire slot of the first multiplicand (arithmetic.rs line 24). -/
def WIRE_MULTIPLICAND_0 : ℕ := 0

/-- Wire slot of the second multiplicand (arithmetic.rs line 25). -/
def WIRE_MULTIPLICAND_1 : ℕ := 1

/-- Wire slot of the addend (arithmetic.rs line 26). -/
def WIRE_ADDEND : ℕ := 2

/-- Wire slot of the output (arithmetic.rs line 27). -/
def WIRE_OUTPUT : ℕ := 3

/-- `ArithmeticGate::evaluate_unfiltered` (arithmetic.rs lines 35-49).  The
constant and wire slices are modelled as total index maps; the source
panics on an out-of-range index and the spec makes row-width validation the
caller's duty.  The right/below neighbour values are ignored, as in the
source. -/
def evaluate_unfiltered {F : Type} [CommRing F]
    (local_constant_values local_wire_values : ℕ → F)
    (_right_wire_values _below_wire_values : ℕ → F) : List F :=
  let const_0 := local_constant_values PREFIX.length
  let const_1 := local_constant_values (PREFIX.length + 1)
  let multiplicand_0 := local_wire_values WIRE_MULTIPLICAND_0
  let multiplicand_1 := local_wire_values WIRE_MULTIPLICAND_1
  let addend := local_wire_values WIRE_ADDEND
  let output := local_wire_values WIRE_OUTPUT
  let computed_output := const_0 * multiplicand_0 * multiplicand_1 + const_1 * addend
  [computed_output - output]

/-- `ArithmeticGate::evaluate_unfiltered_recursively` (arithmetic.rs lines
51-69): the same residual built through the builder's combinators.  The
combinators are pure in the builder model, so the `&mut CircuitBuilder`
argument disappears. -/
def evaluate_unfiltered_recursively {F : Type} [CommRing F]
    (local_constant_values local_wire_values : ℕ → BTarget F)
    (_right_wire_values _below_wire_values : ℕ → BTarget F) : List (BTarget F) :=
  let const_0 := local_constant_values PREFIX.length
  let const_1 := local_constant_values (PREFIX.length + 1)
  let multiplicand_0 := local_wire_values WIRE_MULTIPLICAND_0
  let multiplicand_1 := local_wire_values WIRE_MULTIPLICAND_1
  let addend := local_wire_values WIRE_ADDEND
  let output := local_wire_values WIRE_OUTPUT
  let product_term := CircuitBuilder.mul_many [const_0, multiplicand_0, multiplicand_1]
  let addend_term := CircuitBuilder.mul const_1 addend
  let computed_output := CircuitBuilder.add_many [product_term, addend_term]
  [CircuitBuilder.sub computed_output output]

/-- `ArithmeticGate`'s `dependencies` (arithmetic.rs lines 73-88). -/
def dependencies (index : ℕ) : List Target :=
  [.wire ⟨index, WIRE_MULTIPLICAND_0⟩,
   .wire ⟨index, WIRE_MULTIPLICAND_1⟩,
   .wire ⟨index, WIRE_ADDEND⟩]

/-- `ArithmeticGate`'s `generate` (arithmetic.rs lines 90-124): read the two
row constants after the selector prefix and the three dependency wires, then
return a fresh partial witness holding only the output wire.  Rust's panics
(constants table too short, missing dependency) are `none`. -/
def generate {F : Type} [CommRing F] (index : ℕ) (constants : List (List F))
    (witness : PartialWitness F) : Option (PartialWitness F) := do
  let multiplicand_0_target : Wire := ⟨index, WIRE_MULTIPLICAND_0⟩
  let multiplicand_1_target : Wire := ⟨index, WIRE_MULTIPLICAND_1⟩
  let addend_target : Wire := ⟨index, WIRE_ADDEND⟩
  let output_target : Wire := ⟨index, WIRE_OUTPUT⟩
  let row ← constants.get? index
  let const_0 ← row.get? PREFIX.length
  let const_1 ← row.get? (PREFIX.length + 1)
  let multiplicand_0 ← witness.get_wire multiplicand_0_target
  let multiplicand_1 ← witness.get_wire multiplicand_1_target
  let addend ← witness.get_wire addend_target
  let output := const_0 * multiplicand_0 * multiplicand_1 + const_1 * addend
  some (PartialWitness.new.set_wire output_target output)

end ArithmeticGate

/-- What the recursion scaffold allocates: a public input or a circuit
input (an opaque external commitment). -/
inductive AllocKind where
  | publicInput : AllocKind
  | circuitInput : AllocKind
deriving DecidableEq

/-- A finalized circuit, recorded as its allocation sequence. -/
structure RCircuit where
  allocs : List AllocKind
deriving DecidableEq

/-- Modelled from the spec: the circuit builder's allocation surface.  The
builder hands out fresh target indices in allocation order; the model
records the kind of every allocation made so far. -/
structure RBuilder where
  allocs : List AllocKind

/-- `CircuitBuilder::new` for the recursion scaffold. -/
def RBuilder.new : RBuilder := ⟨[]⟩

/-- Modelled from the spec: allocate one public input, returning its index. -/
def RBuilder.add_public_input (b : RBuilder) : RBuilder × ℕ :=
  (⟨b.allocs ++ [.publicInput]⟩, b.allocs.length)

/-- Modelled from the spec: allocate `n` public inputs in order. -/
def RBuilder.add_public_inputs (b : RBuilder) : ℕ → RBuilder × List ℕ
  | 0 => (b, [])
  | n + 1 =>
    let s := b.add_public_input
    let rest := s.1.add_public_inputs n
    (rest.1, s.2 :: rest.2)

/-- Modelled from the spec: allocate one circuit input (an opaque
commitment), returning its index. -/
def RBuilder.add_circuit_input (b : RBuilder) : RBuilder × ℕ :=
  (⟨b.allocs ++ [.circuitInput]⟩, b.allocs.length)

/-- Modelled from the spec: `build()` finalizes the circuit. -/
def RBuilder.build (b : RBuilder) : RCircuit := ⟨b.allocs⟩

/-- The `for _i in 0..n { v.push(builder.add_circuit_input()) }` loops of
`recursive_verification_circuit` (plonk_recursion.rs lines 34-36 and 43-45). -/
def circuitInputLoop (b : RBuilder) : ℕ → RBuilder × List ℕ
  | 0 => (b, [])
  | n + 1 =>
    let s := b.add_circuit_input
    let rest := circuitInputLoop s.1 n
    (rest.1, s.2 :: rest.2)

/-- The interleaved `l_i.push(..); r_i.push(..)` loop
(plonk_recursion.rs lines 49-52). -/
def lrLoop (b : RBuilder) : ℕ → RBuilder × List ℕ × List ℕ
  | 0 => (b, [], [])
  | n + 1 =>
    let sl := b.add_circuit_input
    let sr := sl.1.add_circuit_input
    let rest := lrLoop sr.1 n
    (rest.1, sl.2 :: rest.2.1, sr.2 :: rest.2.2)

/-- The bundle `RecursiveCircuit` (plonk_recursion.rs lines 3-17), with
targets as allocation indices. -/
structure RecursiveCircuit where
  c_wires : List ℕ
  c_z : ℕ
  c_t : List ℕ
  l_i : List ℕ
  r_i : List ℕ
  circuit : RCircuit

/-- `recursive_verification_circuit` (plonk_recursion.rs lines 19-63),
threading the builder state through the same allocation sequence as the
source.  `NUM_CONSTANTS`, `NUM_WIRES` and
`QUOTIENT_POLYNOMIAL_DEGREE_MULTIPLIER` are configuration constants defined
outside the given sources, so they are parameters here. -/
def recursive_verification_circuit (NUM_CONSTANTS NUM_WIRES QUOTIENT_DEGREE_MULT
    degree_pow : ℕ) : RecursiveCircuit :=
  let s1 := RBuilder.new.add_public_inputs NUM_CONSTANTS
  let s2 := s1.1.add_public_inputs NUM_WIRES
  let s3 := s2.1.add_public_input
  let s4 := s3.1.add_public_inputs QUOTIENT_DEGREE_MULT
  let s5 := s4.1.add_public_inputs degree_pow
  let s6 := s5.1.add_public_input
  let s7 := circuitInputLoop s6.1 NUM_WIRES
  let s8 := s7.1.add_circuit_input
  let s9 := circuitInputLoop s8.1 QUOTIENT_DEGREE_MULT
  let s10 := lrLoop s9.1 degree_pow
  { c_wires := s7.2, c_z := s8.2, c_t := s9.2,
    l_i := s10.2.1, r_i := s10.2.2, circuit := s10.1.build }

/-! Proof-support definitions: the carry-loop invariant for `mul_6_6`, and
concrete inputs used by witness theorems. -/

/-- Invariant of `mul_6_6`'s carry loop before processing index `m`: the
slots from `m` up are still zero, and the limbs written so far plus the
pending carry equal the low chunks of `acc128` below `m` plus its high
chunks shifted one limb up. -/
def carryInv (acc128 : ℕ → ℕ) (m : ℕ) (s : (ℕ → ℕ) × Bool) : Prop :=
  (∀ k, m ≤ k → s.1 k = 0) ∧
  limbsVal m s.1 + b2n s.2 * B64 ^ m =
    (∑ k ∈ Finset.range m, acc128 k % B64 * B64 ^ k) +
      ∑ k ∈ Finset.range (m - 1), acc128 k / B64 * B64 ^ (k + 1)

/-- A brute-force modular square root on `ZMod 5`, used to instantiate the
abstract hash-to-curve environment in a witness. -/
def demoSqrt (c : ZMod 5) : Option (ZMod 5) :=
  if c = 0 then some 0 else if c = 1 then some 1 else if c = 4 then some 2 else none

/-- A concrete hash-to-curve environment over `ZMod 5` (curve
`y² = x³ + 1`, a toy sponge) for witness theorems. -/
def demoEnv : HashEnv (ZMod 5) where
  A := 0
  Bcoeff := 1
  sponge := fun s c => (s + c, 0)
  square_root := demoSqrt
  first_canonical_bit := fun v => decide (v.val % 2 = 1)
  from_canonical_u32 := fun n => (n : ZMod 5)

/-- A concrete partial witness over `ℤ` holding `ArithmeticGate`'s three
dependency wires at gate 0. -/
def demoPW : PartialWitness ℤ :=
  ((PartialWitness.new.set_wire ⟨0, 0⟩ 5).set_wire ⟨0, 1⟩ 7).set_wire ⟨0, 2⟩ 11

/-- The partial witness holding exactly `ArithmeticGate`'s three dependency
wires of gate 0, read off a wire-value assignment. -/
def depsWitness {F : Type} (wires : ℕ → F) : PartialWitness F :=
  ((PartialWitness.new.set_wire ⟨0, 0⟩ (wires 0)).set_wire ⟨0, 1⟩ (wires 1)).set_wire
    ⟨0, 2⟩ (wires 2)

/-! ## Lemmas about the limb helpers -/

/-- A `u64` shift by the full width 64 is undefined (an overflow error). -/
lemma shrU64_full (x : ℕ) : shrU64 x 64 = none := by
  simp [shrU64]

/-- `mul_12_6`'s carry loop propagates failure. -/
lemma foldl_mul12CarryStep_none (l : List ℕ) :
    l.foldl mul12CarryStep none = none := by
  induction l with
  | nil => rfl
  | cons x xs ih => rw [List.foldl_cons]; exact ih

/-- `mul_12_6` fails on every input: its very first carry-loop iteration
shifts the `u64` `acc[0]` right by 64 bits. -/
lemma mul_12_6_always_none (a b : ℕ → ℕ) : mul_12_6 a b = none := by
  have h0 : mul_12_6 a b =
      ((List.range' 1 17).foldl mul12CarryStep
        (some (upd (fun _ => 0) 0 (mul_12_6_acc128 a b 0 % B64), false))).map Prod.fst := rfl
  have h1 : List.range' 1 17 = 1 :: List.range' 2 16 := rfl
  rw [h0, h1, List.foldl_cons]
  have h2 :
      mul12CarryStep
        (some (upd (fun _ => 0) 0 (mul_12_6_acc128 a b 0 % B64), false)) 1 = none := by
    simp [mul12CarryStep, shrU64]
  rw [h2, foldl_mul12CarryStep_none]
  rfl

/-- Adding `v` into slot `k` raises the weighted limb total by `v * B64 ^ k`. -/
lemma updAdd_limbsVal (f : ℕ → ℕ) (k v n : ℕ) (hk : k < n) :
    limbsVal n (upd f k (f k + v)) = limbsVal n f + v * B64 ^ k := by
  have hk' : k ∈ Finset.range n := Finset.mem_range.mpr hk
  unfold limbsVal
  rw [← Finset.sum_erase_add _ _ hk', ← Finset.sum_erase_add _ (fun j => f j * B64 ^ j) hk']
  have he : ∀ x ∈ (Finset.range n).erase k,
      upd f k (f k + v) x * B64 ^ x = f x * B64 ^ x := by
    intro x hx
    have hx' : x ≠ k := Finset.ne_of_mem_erase hx
    simp [upd, hx']
  rw [Finset.sum_congr rfl he]
  simp only [upd, eq_self_iff_true, if_true]
  ring

/-- Adding `v` into slot `k` raises the plain total by `v`. -/
lemma updAdd_totSum (f : ℕ → ℕ) (k v n : ℕ) (hk : k < n) :
    totSum n (upd f k (f k + v)) = totSum n f + v := by
  have hk' : k ∈ Finset.range n := Finset.mem_range.mpr hk
  unfold totSum
  rw [← Finset.sum_erase_add _ _ hk', ← Finset.sum_erase_add _ (fun j => f j) hk']
  have he : ∀ x ∈ (Finset.range n).erase k, upd f k (f k + v) x = f x := by
    intro x hx
    have hx' : x ≠ k := Finset.ne_of_mem_erase hx
    simp [upd, hx']
  rw [Finset.sum_congr rfl he]
  simp only [upd, eq_self_iff_true, if_true]
  ring

/-- A fold whose every step raises a measure by a step-dependent amount
raises it by the total. -/
lemma foldl_measure_add {α : Type} (μ : α → ℕ) (f : α → ℕ → α) (g : ℕ → ℕ) :
    ∀ (l : List ℕ) (s : α), (∀ t j, j ∈ l → μ (f t j) = μ t + g j) →
      μ (l.foldl f s) = μ s + (l.map g).sum := by
  intro l
  induction l with
  | nil => intro s _; simp
  | cons x xs ih =>
    intro s h
    rw [List.foldl_cons, List.map_cons, List.sum_cons,
      ih _ (fun t j hj => h t j (List.mem_cons_of_mem _ hj)),
      h s x (List.mem_cons_self _ _)]
    ring

/-- The list total over `List.range` is the `Finset.range` sum. -/
lemma range_map_sum (g : ℕ → ℕ) (n : ℕ) :
    ((List.range n).map g).sum = ∑ j ∈ Finset.range n, g j := by
  induction n with
  | zero => simp
  | succ m ih => rw [List.range_succ, Finset.sum_range_succ]; simp [ih]

/-! ## Correctness of the grade-school phase of `mul_6_6` -/

/-- One grade-school step adds exactly `a i * b j * B64 ^ (i + j)` to the
weighted total. -/
lemma mulRowStep_limbsVal (a b : ℕ → ℕ) (i j : ℕ) (hij : i + j + 1 < 12)
    (acc : ℕ → ℕ) :
    limbsVal 12 (mulRowStep a b i acc j) =
      limbsVal 12 acc + a i * b j * B64 ^ (i + j) := by
  have h1 : mulRowStep a b i acc j =
      upd (upd acc (i + j) (acc (i + j) + a i * b j % B64)) (i + j + 1)
        ((upd acc (i + j) (acc (i + j) + a i * b j % B64)) (i + j + 1) +
          a i * b j / B64) := rfl
  rw [h1, updAdd_limbsVal _ _ _ _ hij, updAdd_limbsVal _ _ _ _ (by omega)]
  have h2 : a i * b j / B64 * B64 ^ (i + j + 1) +
      a i * b j % B64 * B64 ^ (i + j) = a i * b j * B64 ^ (i + j) := by
    rw [pow_succ]
    calc a i * b j / B64 * (B64 ^ (i + j) * B64) + a i * b j % B64 * B64 ^ (i + j)
        = (a i * b j % B64 + B64 * (a i * b j / B64)) * B64 ^ (i + j) := by ring
      _ = a i * b j * B64 ^ (i + j) := by rw [Nat.mod_add_div]
  calc limbsVal 12 acc + a i * b j % B64 * B64 ^ (i + j) +
        a i * b j / B64 * B64 ^ (i + j + 1)
      = limbsVal 12 acc + (a i * b j / B64 * B64 ^ (i + j + 1) +
          a i * b j % B64 * B64 ^ (i + j)) := by ring
    _ = limbsVal 12 acc + a i * b j * B64 ^ (i + j) := by rw [h2]

/-- One grade-school step adds the two chunks to the plain total. -/
lemma mulRowStep_totSum (a b : ℕ → ℕ) (i j : ℕ) (hij : i + j + 1 < 12)
    (acc : ℕ → ℕ) :
    totSum 12 (mulRowStep a b i acc j) =
      totSum 12 acc + (a i * b j % B64 + a i * b j / B64) := by
  have h1 : mulRowStep a b i acc j =
      upd (upd acc (i + j) (acc (i + j) + a i * b j % B64)) (i + j + 1)
        ((upd acc (i + j) (acc (i + j) + a i * b j % B64)) (i + j + 1) +
          a i * b j / B64) := rfl
  rw [h1, updAdd_totSum _ _ _ _ hij, updAdd_totSum _ _ _ _ (by omega)]
  ring

/-- Row `i` of the grade-school double loop adds row `i`'s partial products
to the weighted total. -/
lemma innerFold_limbsVal (a b : ℕ → ℕ) (i : ℕ) (hi : i < 6) (acc : ℕ → ℕ) :
    limbsVal 12 ((List.range 6).foldl (mulRowStep a b i) acc) =
      limbsVal 12 acc + ∑ j ∈ Finset.range 6, a i * b j * B64 ^ (i + j) := by
  rw [foldl_measure_add (limbsVal 12) (mulRowStep a b i)
      (fun j => a i * b j * B64 ^ (i + j)) (List.range 6) acc ?step, range_map_sum]
  case step =>
    intro t j hj
    have hj6 : j < 6 := by simpa [List.mem_range] using hj
    exact mulRowStep_limbsVal a b i j (by omega) t

/-- Row `i` of the grade-school double loop adds row `i`'s chunk totals to
the plain total. -/
lemma innerFold_totSum (a b : ℕ → ℕ) (i : ℕ) (hi : i < 6) (acc : ℕ → ℕ) :
    totSum 12 ((List.range 6).foldl (mulRowStep a b i) acc) =
      totSum 12 acc + ∑ j ∈ Finset.range 6, (a i * b j % B64 + a i * b j / B64) := by
  rw [foldl_measure_add (totSum 12) (mulRowStep a b i)
      (fun j => a i * b j % B64 + a i * b j / B64) (List.range 6) acc ?step, range_map_sum]
  case step =>
    intro t j hj
    have hj6 : j < 6 := by simpa [List.mem_range] using hj
    exact mulRowStep_totSum a b i j (by omega) t

/-- The weighted total of `acc128` is the full double sum of partial
products. -/
lemma acc128_limbsVal (a b : ℕ → ℕ) :
    limbsVal 12 (mul_6_6_acc128 a b) =
      ∑ i ∈ Finset.range 6, ∑ j ∈ Finset.range 6, a i * b j * B64 ^ (i + j) := by
  unfold mul_6_6_acc128
  rw [foldl_measure_add (limbsVal 12)
      (fun acc i => (List.range 6).foldl (mulRowStep a b i) acc)
      (fun i => ∑ j ∈ Finset.range 6, a i * b j * B64 ^ (i + j))
      (List.range 6) (fun _ => 0) ?step, range_map_sum]
  · simp [limbsVal]
  case step =>
    intro t i hi
    exact innerFold_limbsVal a b i (by simpa [List.mem_range] using hi) t

/-- The weighted total of `acc128` is exactly the product of the two
6-limb inputs. -/
lemma acc128_eq_mul (a b : ℕ → ℕ) :
    limbsVal 12 (mul_6_6_acc128 a b) = limbsVal 6 a * limbsVal 6 b := by
  rw [acc128_limbsVal]
  unfold limbsVal
  rw [Finset.sum_mul_sum]
  apply Finset.sum_congr rfl
  intro i _
  apply Finset.sum_congr rfl
  intro j _
  rw [pow_add]
  ring

/-- The plain total of `acc128` is the double sum of chunk values. -/
lemma acc128_totSum (a b : ℕ → ℕ) :
    totSum 12 (mul_6_6_acc128 a b) =
      ∑ i ∈ Finset.range 6, ∑ j ∈ Finset.range 6,
        (a i * b j % B64 + a i * b j / B64) := by
  unfold mul_6_6_acc128
  rw [foldl_measure_add (totSum 12)
      (fun acc i => (List.range 6).foldl (mulRowStep a b i) acc)
      (fun i => ∑ j ∈ Finset.range 6, (a i * b j % B64 + a i * b j / B64))
      (List.range 6) (fun _ => 0) ?step, range_map_sum]
  · simp [totSum]
  case step =>
    intro t i hi
    exact innerFold_totSum a b i (by simpa [List.mem_range] using hi) t

/-- Every `acc128` slot is at most `72 * (B64 - 1)`: the slots jointly hold
72 chunks, each below `B64`. -/
lemma acc128_slot_le (a b : ℕ → ℕ) (ha : ∀ i, i < 6 → a i < B64)
    (hb : ∀ i, i < 6 → b i < B64) (k : ℕ) (hk : k < 12) :
    mul_6_6_acc128 a b k ≤ 72 * (B64 - 1) := by
  have hB : 0 < B64 := by norm_num [B64]
  have hsingle : mul_6_6_acc128 a b k ≤ totSum 12 (mul_6_6_acc128 a b) := by
    unfold totSum
    exact Finset.single_le_sum (fun _ _ => Nat.zero_le _) (Finset.mem_range.mpr hk)
  have hbound : totSum 12 (mul_6_6_acc128 a b) ≤ 72 * (B64 - 1) := by
    rw [acc128_totSum]
    have hterm : ∀ i ∈ Finset.range 6, ∀ j ∈ Finset.range 6,
        a i * b j % B64 + a i * b j / B64 ≤ 2 * (B64 - 1) := by
      intro i hi j hj
      have hia : i < 6 := Finset.mem_range.mp hi
      have hjb : j < 6 := Finset.mem_range.mp hj
      have hmod : a i * b j % B64 ≤ B64 - 1 :=
        Nat.le_sub_one_of_lt (Nat.mod_lt _ hB)
      have hmul : a i * b j < B64 * B64 :=
        Nat.mul_lt_mul'' (ha i hia) (hb j hjb)
      have hdivlt : a i * b j / B64 < B64 := Nat.div_lt_of_lt_mul (by linarith [hmul])
      have hdiv : a i * b j / B64 ≤ B64 - 1 := Nat.le_sub_one_of_lt hdivlt
      omega
    calc ∑ i ∈ Finset.range 6, ∑ j ∈ Finset.range 6,
          (a i * b j % B64 + a i * b j / B64)
        ≤ ∑ i ∈ Finset.range 6, ∑ j ∈ Finset.range 6, 2 * (B64 - 1) :=
          Finset.sum_le_sum (fun i hi => Finset.sum_le_sum (hterm i hi))
      _ = 72 * (B64 - 1) := by
          simp [Finset.sum_const, Finset.card_range]
          ring
  exact le_trans hsingle hbound

/-- The high half of every `acc128` slot fits far below a `u64`: the
`as u64` casts in the carry loop are lossless. -/
lemma acc128_div_le (a b : ℕ → ℕ) (ha : ∀ i, i < 6 → a i < B64)
    (hb : ∀ i, i < 6 → b i < B64) (k : ℕ) (hk : k < 12) :
    mul_6_6_acc128 a b k / B64 ≤ 71 := by
  have h1 := acc128_slot_le a b ha hb k hk
  have h2 : 72 * (B64 - 1) / B64 = 71 := by decide
  exact le_trans (Nat.div_le_div_right h1) (le_of_eq h2)

/-- An `n`-limb value with limbs below `B64` is below `B64 ^ n`. -/
lemma limbsVal_lt_pow (f : ℕ → ℕ) (n : ℕ) (hf : ∀ i, i < n → f i < B64) :
    limbsVal n f < B64 ^ n := by
  induction n with
  | zero => simp [limbsVal]
  | succ m ih =>
    have h1 : limbsVal m f < B64 ^ m := ih (fun i hi => hf i (by omega))
    have h2 : limbsVal (m + 1) f = limbsVal m f + f m * B64 ^ m := by
      unfold limbsVal
      rw [Finset.sum_range_succ]
    have h3 : 1 + f m ≤ B64 := by
      have := hf m (by omega)
      omega
    calc limbsVal (m + 1) f = limbsVal m f + f m * B64 ^ m := h2
      _ < B64 ^ m + f m * B64 ^ m := by omega
      _ = (1 + f m) * B64 ^ m := by ring
      _ ≤ B64 * B64 ^ m := Nat.mul_le_mul_right _ h3
      _ = B64 ^ (m + 1) := by rw [pow_succ]; ring

/-- The topmost `acc128` slot is below `B64`, so its high half is zero. -/
lemma acc128_11_lt (a b : ℕ → ℕ) (ha : ∀ i, i < 6 → a i < B64)
    (hb : ∀ i, i < 6 → b i < B64) :
    mul_6_6_acc128 a b 11 < B64 := by
  have hsplit : limbsVal 12 (mul_6_6_acc128 a b) =
      limbsVal 11 (mul_6_6_acc128 a b) + mul_6_6_acc128 a b 11 * B64 ^ 11 := by
    unfold limbsVal
    rw [Finset.sum_range_succ]
  have hsingle : mul_6_6_acc128 a b 11 * B64 ^ 11 ≤ limbsVal 12 (mul_6_6_acc128 a b) := by
    omega
  have hab : limbsVal 6 a * limbsVal 6 b < B64 ^ 12 := by
    have h1 := limbsVal_lt_pow a 6 ha
    have h2 := limbsVal_lt_pow b 6 hb
    calc limbsVal 6 a * limbsVal 6 b < B64 ^ 6 * B64 ^ 6 := Nat.mul_lt_mul'' h1 h2
      _ = B64 ^ 12 := by rw [← pow_add]
  have hlt : mul_6_6_acc128 a b 11 * B64 ^ 11 < B64 * B64 ^ 11 := by
    rw [acc128_eq_mul] at hsingle
    calc mul_6_6_acc128 a b 11 * B64 ^ 11 ≤ limbsVal 6 a * limbsVal 6 b := hsingle
      _ < B64 ^ 12 := hab
      _ = B64 * B64 ^ 11 := by rw [← pow_succ']
  exact Nat.lt_of_mul_lt_mul_right hlt

/-! ## Correctness of the carry loop of `mul_6_6` -/

/-- `overflowing_add` decomposition: for a sum below `2 * B64`, the wrapped
result plus `B64` times the carry bit recovers the sum. -/
lemma mod_carry_split (s : ℕ) (hs : s < 2 * B64) :
    s % B64 + B64 * b2n (decide (B64 ≤ s)) = s := by
  rcases lt_or_le s B64 with h | h
  · have hd : decide (B64 ≤ s) = false := decide_eq_false (not_le.mpr h)
    rw [hd, Nat.mod_eq_of_lt h]
    simp [b2n]
  · have hd : decide (B64 ≤ s) = true := decide_eq_true h
    have hmod : s % B64 = s - B64 := by
      rw [Nat.mod_eq_sub_mod h, Nat.mod_eq_of_lt (by omega)]
    rw [hd, hmod]
    simp [b2n]
    omega

/-- One carry-loop step preserves the invariant, moving the frontier from
`m` to `m + 1`. -/
lemma carryStep_inv_step (A : ℕ → ℕ) (hdiv : ∀ k, k < 11 → A k / B64 ≤ 71)
    (m : ℕ) (hm1 : 1 ≤ m) (hm : m < 12) (s : (ℕ → ℕ) × Bool)
    (hinv : carryInv A m s) : carryInv A (m + 1) (carryStep A s m) := by
  obtain ⟨m', rfl⟩ : ∃ m', m = m' + 1 := ⟨m - 1, by omega⟩
  obtain ⟨hz, hsum⟩ := hinv
  have hB : 0 < B64 := by norm_num [B64]
  have h71 : (72 : ℕ) < B64 := by norm_num [B64]
  have hd : A m' / B64 ≤ 71 := hdiv m' (by omega)
  have hb2 : b2n s.2 ≤ 1 := by cases s.2 <;> simp [b2n]
  have hcast : A m' / B64 % B64 = A m' / B64 := Nat.mod_eq_of_lt (by omega)
  have haddend : (A m' / B64 + b2n s.2) % B64 = A m' / B64 + b2n s.2 :=
    Nat.mod_eq_of_lt (by omega)
  have hzero : s.1 (m' + 1) = 0 := hz _ le_rfl
  have hmodlt : A (m' + 1) % B64 < B64 := Nat.mod_lt _ hB
  have hstep : carryStep A s (m' + 1) =
      (upd s.1 (m' + 1) ((A (m' + 1) % B64 + (A m' / B64 + b2n s.2)) % B64),
        decide (B64 ≤ A (m' + 1) % B64 + (A m' / B64 + b2n s.2))) := by
    have h0 : carryStep A s (m' + 1) =
        (upd s.1 (m' + 1)
          ((s.1 (m' + 1) +
              (A (m' + 1) % B64 + (A m' / B64 % B64 + b2n s.2) % B64) % B64) % B64),
          decide (B64 ≤ A (m' + 1) % B64 + (A m' / B64 % B64 + b2n s.2) % B64)) := rfl
    rw [h0, hcast, haddend, hzero]
    have h1 : (0 + (A (m' + 1) % B64 + (A m' / B64 + b2n s.2)) % B64) % B64 =
        (A (m' + 1) % B64 + (A m' / B64 + b2n s.2)) % B64 := by
      rw [Nat.zero_add]
      exact Nat.mod_eq_of_lt (Nat.mod_lt _ hB)
    rw [h1]
  rw [hstep]
  constructor
  · intro k hk
    have hkne : k ≠ m' + 1 := by omega
    simp only [upd, if_neg hkne]
    exact hz k (by omega)
  · have hself : limbsVal (m' + 1 + 1) (upd s.1 (m' + 1)
        ((A (m' + 1) % B64 + (A m' / B64 + b2n s.2)) % B64)) =
        limbsVal (m' + 1) s.1 +
          (A (m' + 1) % B64 + (A m' / B64 + b2n s.2)) % B64 * B64 ^ (m' + 1) := by
      unfold limbsVal
      rw [Finset.sum_range_succ]
      congr 1
      · apply Finset.sum_congr rfl
        intro k hk
        have hkne : k ≠ m' + 1 := by
          have := Finset.mem_range.mp hk
          omega
        simp [upd, hkne]
      · simp [upd]
    have hkey : (A (m' + 1) % B64 + (A m' / B64 + b2n s.2)) % B64 +
        B64 * b2n (decide (B64 ≤ A (m' + 1) % B64 + (A m' / B64 + b2n s.2))) =
        A (m' + 1) % B64 + (A m' / B64 + b2n s.2) :=
      mod_carry_split _ (by omega)
    have hR1 : ∑ k ∈ Finset.range (m' + 1 + 1), A k % B64 * B64 ^ k =
        (∑ k ∈ Finset.range (m' + 1), A k % B64 * B64 ^ k) +
          A (m' + 1) % B64 * B64 ^ (m' + 1) := Finset.sum_range_succ _ _
    have hR2 : ∑ k ∈ Finset.range (m' + 1), A k / B64 * B64 ^ (k + 1) =
        (∑ k ∈ Finset.range m', A k / B64 * B64 ^ (k + 1)) +
          A m' / B64 * B64 ^ (m' + 1) := Finset.sum_range_succ _ _
    have hsub : m' + 1 + 1 - 1 = m' + 1 := rfl
    rw [hself, hsub, hR1, hR2]
    have hsum' : limbsVal (m' + 1) s.1 + b2n s.2 * B64 ^ (m' + 1) =
        (∑ k ∈ Finset.range (m' + 1), A k % B64 * B64 ^ k) +
          ∑ k ∈ Finset.range m', A k / B64 * B64 ^ (k + 1) := hsum
    have hpow : B64 ^ (m' + 1 + 1) = B64 ^ (m' + 1) * B64 := pow_succ _ _
    rw [hpow]
    zify at hkey hsum' ⊢
    linear_combination hsum' + hkey * (B64 : ℤ) ^ (m' + 1)

/-- Folding the carry step over the remaining indices carries the invariant
to the end of the array. -/
lemma carryFold_inv (A : ℕ → ℕ) (hdiv : ∀ k, k < 11 → A k / B64 ≤ 71) :
    ∀ (cnt m : ℕ) (s : (ℕ → ℕ) × Bool), 1 ≤ m → m + cnt = 12 → carryInv A m s →
      carryInv A 12 ((List.range' m cnt).foldl (carryStep A) s) := by
  intro cnt
  induction cnt with
  | zero =>
    intro m s h1 h2 hinv
    have hm : m = 12 := by omega
    subst hm
    simpa using hinv
  | succ n ih =>
    intro m s h1 h2 hinv
    rw [List.range'_succ, List.foldl_cons]
    exact ih (m + 1) _ (by omega) (by omega)
      (carryStep_inv_step A hdiv m h1 (by omega) s hinv)

/-- The carry loop starts in the invariant state after `acc[0]` is set. -/
lemma carryInv_init (A : ℕ → ℕ) :
    carryInv A 1 (upd (fun _ => 0) 0 (A 0 % B64), false) := by
  constructor
  · intro k hk
    have hkne : k ≠ 0 := by omega
    simp [upd, hkne]
  · simp [limbsVal, b2n, upd]

/-- Full specification of `mul_6_6`'s two phases on canonical `u64` limbs:
the final carry flag is clear and the 12 output limbs denote the exact
product. -/
theorem mul_6_6_spec (a b : ℕ → ℕ) (ha : ∀ i, i < 6 → a i < B64)
    (hb : ∀ i, i < 6 → b i < B64) :
    (mul_6_6_raw a b).2 = false ∧
      limbsVal 12 (mul_6_6_raw a b).1 = limbsVal 6 a * limbsVal 6 b := by
  have hdiv : ∀ k, k < 11 → mul_6_6_acc128 a b k / B64 ≤ 71 :=
    fun k hk => acc128_div_le a b ha hb k (by omega)
  have hraw : mul_6_6_raw a b =
      (List.range' 1 11).foldl (carryStep (mul_6_6_acc128 a b))
        (upd (fun _ => 0) 0 (mul_6_6_acc128 a b 0 % B64), false) := rfl
  have hfold := carryFold_inv (mul_6_6_acc128 a b) hdiv 11 1 _ (by norm_num)
    (by norm_num) (carryInv_init (mul_6_6_acc128 a b))
  rw [← hraw] at hfold
  obtain ⟨hz, hsum⟩ := hfold
  have h11 : mul_6_6_acc128 a b 11 / B64 = 0 :=
    Nat.div_eq_of_lt (acc128_11_lt a b ha hb)
  have hlh : (∑ k ∈ Finset.range 12, mul_6_6_acc128 a b k % B64 * B64 ^ k) +
      (∑ k ∈ Finset.range (12 - 1), mul_6_6_acc128 a b k / B64 * B64 ^ (k + 1)) =
      limbsVal 12 (mul_6_6_acc128 a b) := by
    have hext : (∑ k ∈ Finset.range 11, mul_6_6_acc128 a b k / B64 * B64 ^ (k + 1)) =
        ∑ k ∈ Finset.range 12, mul_6_6_acc128 a b k / B64 * B64 ^ (k + 1) := by
      have h12eq : Finset.range 12 = Finset.range (11 + 1) := rfl
      conv_rhs => rw [h12eq, Finset.sum_range_succ]
      rw [h11]
      simp
    have h12 : (12 : ℕ) - 1 = 11 := rfl
    rw [h12, hext, ← Finset.sum_add_distrib]
    unfold limbsVal
    apply Finset.sum_congr rfl
    intro k _
    rw [pow_succ]
    calc mul_6_6_acc128 a b k % B64 * B64 ^ k +
          mul_6_6_acc128 a b k / B64 * (B64 ^ k * B64)
        = (mul_6_6_acc128 a b k % B64 + B64 * (mul_6_6_acc128 a b k / B64)) * B64 ^ k := by
          ring
      _ = mul_6_6_acc128 a b k * B64 ^ k := by rw [Nat.mod_add_div]
  have hsum' : limbsVal 12 (mul_6_6_raw a b).1 + b2n (mul_6_6_raw a b).2 * B64 ^ 12 =
      limbsVal 6 a * limbsVal 6 b := by
    rw [hsum, hlh, acc128_eq_mul]
  have hab : limbsVal 6 a * limbsVal 6 b < B64 ^ 12 := by
    calc limbsVal 6 a * limbsVal 6 b
        < B64 ^ 6 * B64 ^ 6 := Nat.mul_lt_mul'' (limbsVal_lt_pow a 6 ha) (limbsVal_lt_pow b 6 hb)
      _ = B64 ^ 12 := by rw [← pow_add]
  have hcarry : (mul_6_6_raw a b).2 = false := by
    cases hc : (mul_6_6_raw a b).2 with
    | false => rfl
    | true =>
      rw [hc] at hsum'
      simp [b2n] at hsum'
      omega
  refine ⟨hcarry, ?_⟩
  rw [hcarry] at hsum'
  simpa [b2n] using hsum'

/-- On carry-free inputs `mul_6_6` returns its limb array. -/
lemma mul_6_6_eq_some (a b : ℕ → ℕ) (ha : ∀ i, i < 6 → a i < B64)
    (hb : ∀ i, i < 6 → b i < B64) :
    mul_6_6 a b = some (mul_6_6_raw a b).1 := by
  have h := (mul_6_6_spec a b ha hb).1
  have h0 : mul_6_6 a b = if (mul_6_6_raw a b).2 then none else some (mul_6_6_raw a b).1 := rfl
  rw [h0, h]
  simp

/-! ## Claim theorems for the field arithmetic (field.rs) -/

/-- C10: for every pair of 6-limb `u64` inputs, `mul_6_6`'s final carry-out
assertion holds — the carry flag is `false` after the last limb is
propagated, because the product of two 384-bit integers fits in 12 limbs —
hence `mul_6_6` never panics and returns its limb array. -/
theorem mul_6_6_no_final_carry (a b : ℕ → ℕ) (ha : ∀ i, i < 6 → a i < B64)
    (hb : ∀ i, i < 6 → b i < B64) :
    (mul_6_6_raw a b).2 = false ∧ mul_6_6 a b = some (mul_6_6_raw a b).1 :=
  ⟨(mul_6_6_spec a b ha hb).1, mul_6_6_eq_some a b ha hb⟩

set_option maxRecDepth 100000 in
/-- Witness for C10 at the concrete canonical input 1 · 1. -/
theorem mul_6_6_no_final_carry_witness :
    (mul_6_6_raw oneLimbs oneLimbs).2 = false ∧
      mul_6_6 oneLimbs oneLimbs = some (mul_6_6_raw oneLimbs oneLimbs).1 :=
  mul_6_6_no_final_carry oneLimbs oneLimbs (by decide) (by decide)

set_option maxRecDepth 100000 in
/-- C2 (amended): for every pair of canonical inputs, `Bls12Base::mul`
fails before returning a value — but inside `mul_12_6`'s carry loop, whose
first iteration shifts the `u64` `acc[0]` right by 64 bits, before the
unimplemented `sub_12x64` is ever reached. -/
theorem bls12_mul_always_fails_inside_mul_12_6 (a b : ℕ → ℕ)
    (ha : ∀ i, i < 6 → a i < B64) (hb : ∀ i, i < 6 → b i < B64) :
    Bls12Base.mul a b = MulOutcome.mul126Panic := by
  have h1 : mul_6_6 a b = some (mul_6_6_raw a b).1 := mul_6_6_eq_some a b ha hb
  unfold Bls12Base.mul
  split
  next heq =>
    rw [h1] at heq
    exact Option.noConfusion heq
  next product heq =>
    split
    next => rfl
    next pr heq2 =>
      rw [mul_12_6_always_none product Bls12Base.BARRET_FACTOR] at heq2
      exact Option.noConfusion heq2

set_option maxRecDepth 100000 in
/-- Witness for C2's amended theorem at the concrete input 1 · 1. -/
theorem bls12_mul_fails_witness :
    Bls12Base.mul oneLimbs oneLimbs = MulOutcome.mul126Panic :=
  bls12_mul_always_fails_inside_mul_12_6 oneLimbs oneLimbs (by decide) (by decide)

set_option maxRecDepth 100000 in
/-- C2 counterexample: at the concrete canonical input 1 · 1 the evaluation
of `Bls12Base::mul` does not reach `sub_12x64` (it fails earlier, in
`mul_12_6`), refuting the claim that every invocation reaches the
unimplemented subtraction. -/
theorem bls12_mul_one_not_at_sub_12x64 :
    ¬ Bls12Base.mul oneLimbs oneLimbs = MulOutcome.subTodo := by
  decide

set_option maxRecDepth 100000 in
/-- C1: multiplication correctness fails on the code.  At the failing input
`a = b = 1` the claimed result is `(1 * 1) mod ORDER = 1`, but
`Bls12Base::mul` produces no field element at all (it stops inside
`mul_12_6`). -/
theorem bls12_mul_one_one_no_result :
    ∀ l : List ℕ, Bls12Base.mul oneLimbs oneLimbs ≠ MulOutcome.ok l := by
  have h1 : Bls12Base.mul oneLimbs oneLimbs = MulOutcome.mul126Panic := by decide
  intro l h
  rw [h1] at h
  exact MulOutcome.noConfusion h

set_option maxRecDepth 100000 in
/-- C3: the shift loop does not compute the claimed 762-bit right shift.
On the 18-limb input with limb 12 = 1 (the value `2 ^ 768`), the loop body
writes the same word into every output limb, so output limb 1 is 64 — the
bits the claim assigns to limb 0 — while the claimed limb 1
(bits 826..890 of the input) is 0. -/
theorem shift_loop_wrong_limb_at_unit :
    Bls12Base.shiftLoop limb12Unit 1 = 64 ∧
      limbsVal 18 limb12Unit / 2 ^ (762 + 64 * 1) % B64 = 0 ∧
      limbsVal 18 limb12Unit / 2 ^ (762 + 64 * 0) % B64 = 64 := by
  refine ⟨by decide, by decide, by decide⟩

/-- C4: `mul_12_6` never returns the 18-limb product — on the failing input
`a = 1` (12 limbs), `b = 1` (6 limbs) it produces no value at all, its
carry loop having read the wrong accumulator array and shifted a `u64` by
the full 64-bit width. -/
theorem mul_12_6_fails_on_ones : mul_12_6 oneLimbs12 oneLimbs = none :=
  mul_12_6_always_none oneLimbs12 oneLimbs

/-! ## Hash-to-curve (hash_to_curve.rs) -/

/-- Characterization of a successful loop iteration: the returned `x` is the
first sponge output and `y` is the square root of the curve polynomial at
`x`, negated when the sign bit is set. -/
lemma hashStep_some {F : Type} [CommRing F] (env : HashEnv F) (seed : F) (i : ℕ)
    (p : F × F) (h : hashStep env seed i = some p) :
    p.1 = (env.sponge seed (env.from_canonical_u32 (i % 2 ^ 32))).1 ∧
    ∃ z, env.square_root (p.1 ^ 3 + env.A * p.1 + env.Bcoeff) = some z ∧
      p.2 = if env.first_canonical_bit
          (env.sponge seed (env.from_canonical_u32 (i % 2 ^ 32))).2
        then -z else z := by
  have h0 : hashStep env seed i =
      (match env.square_root
          ((env.sponge seed (env.from_canonical_u32 (i % 2 ^ 32))).1 ^ 3 +
            env.A * (env.sponge seed (env.from_canonical_u32 (i % 2 ^ 32))).1 +
            env.Bcoeff) with
        | some y => some ((env.sponge seed (env.from_canonical_u32 (i % 2 ^ 32))).1,
            if env.first_canonical_bit
                (env.sponge seed (env.from_canonical_u32 (i % 2 ^ 32))).2
              then -y else y)
        | none => none) := rfl
  rw [h0] at h
  cases hsq : env.square_root
      ((env.sponge seed (env.from_canonical_u32 (i % 2 ^ 32))).1 ^ 3 +
        env.A * (env.sponge seed (env.from_canonical_u32 (i % 2 ^ 32))).1 +
        env.Bcoeff) with
  | none => rw [hsq] at h; exact Option.noConfusion h
  | some z =>
    rw [hsq] at h
    have hp := Option.some.inj h
    subst hp
    exact ⟨rfl, z, hsq, rfl⟩

/-- A successful run returns at an index no earlier than the start, whose
step succeeds, all earlier steps from the start having failed. -/
lemma hash_loop_some {F : Type} [CommRing F] (env : HashEnv F) (seed : F) :
    ∀ (fuel i0 i : ℕ) (x y : F),
      hash_base_field_to_curve env seed fuel i0 = some (i, x, y) →
      i0 ≤ i ∧ hashStep env seed i = some (x, y) ∧
        ∀ j, i0 ≤ j → j < i → hashStep env seed j = none := by
  intro fuel
  induction fuel with
  | zero => intro i0 i x y h; exact Option.noConfusion h
  | succ n ih =>
    intro i0 i x y h
    have h0 : hash_base_field_to_curve env seed (n + 1) i0 =
        match hashStep env seed i0 with
        | some p => some (i0, p.1, p.2)
        | none => hash_base_field_to_curve env seed n (i0 + 1) := rfl
    rw [h0] at h
    cases hstep : hashStep env seed i0 with
    | some p =>
      rw [hstep] at h
      have h1 := Option.some.inj h
      rw [Prod.mk.injEq, Prod.mk.injEq] at h1
      obtain ⟨hi, hx, hy⟩ := h1
      subst hi
      refine ⟨le_refl _, ?_, ?_⟩
      · rw [← hx, ← hy]
        simpa using hstep
      · intro j hj1 hj2
        omega
    | none =>
      rw [hstep] at h
      obtain ⟨hle, hsome, hnone⟩ := ih (i0 + 1) i x y h
      refine ⟨by omega, hsome, ?_⟩
      intro j hj1 hj2
      rcases eq_or_lt_of_le hj1 with heq | hlt
      · rw [← heq]; exact hstep
      · exact hnone j (by omega) hj2

/-- If the step at distance `d` from the start succeeds and every earlier
step fails, `d + 1` units of fuel suffice for the loop to return. -/
lemma hash_loop_reaches {F : Type} [CommRing F] (env : HashEnv F) (seed : F) :
    ∀ (d i0 : ℕ), hashStep env seed (i0 + d) ≠ none →
      (∀ j, i0 ≤ j → j < i0 + d → hashStep env seed j = none) →
      ∃ r, hash_base_field_to_curve env seed (d + 1) i0 = some r := by
  intro d
  induction d with
  | zero =>
    intro i0 hgood _
    have h0 : hash_base_field_to_curve env seed 1 i0 =
        match hashStep env seed i0 with
        | some p => some (i0, p.1, p.2)
        | none => hash_base_field_to_curve env seed 0 (i0 + 1) := rfl
    cases hstep : hashStep env seed i0 with
    | none => exact absurd hstep hgood
    | some p => exact ⟨(i0, p.1, p.2), by rw [h0, hstep]⟩
  | succ n ih =>
    intro i0 hgood hnone
    have h1 : hashStep env seed i0 = none := hnone i0 le_rfl (by omega)
    have h0 : hash_base_field_to_curve env seed (n + 1 + 1) i0 =
        match hashStep env seed i0 with
        | some p => some (i0, p.1, p.2)
        | none => hash_base_field_to_curve env seed (n + 1) (i0 + 1) := rfl
    have hgood' : hashStep env seed (i0 + 1 + n) ≠ none := by
      rw [show i0 + 1 + n = i0 + (n + 1) by omega]
      exact hgood
    obtain ⟨r, hr⟩ := ih (i0 + 1) hgood' (fun j hj1 hj2 => hnone j (by omega) (by omega))
    exact ⟨r, by rw [h0, h1]; exact hr⟩

/-- C5: whenever `hash_base_field_to_curve` returns — under the field API's
square-root contract — the returned point `(x, y)` satisfies
`y² = x³ + A·x + B`; `x` is the first sponge output of the successful
iteration and `y` is the square root of the candidate, negated exactly when
the iteration's sign bit is set. -/
theorem hash_to_curve_point_on_curve {F : Type} [CommRing F] (env : HashEnv F)
    (seed : F) (fuel i0 i : ℕ) (x y : F)
    (hsqrt : ∀ c z, env.square_root c = some z → z * z = c)
    (hret : hash_base_field_to_curve env seed fuel i0 = some (i, x, y)) :
    y ^ 2 = x ^ 3 + env.A * x + env.Bcoeff ∧
    x = (env.sponge seed (env.from_canonical_u32 (i % 2 ^ 32))).1 ∧
    ∃ z, env.square_root (x ^ 3 + env.A * x + env.Bcoeff) = some z ∧
      y = if env.first_canonical_bit
          (env.sponge seed (env.from_canonical_u32 (i % 2 ^ 32))).2
        then -z else z := by
  obtain ⟨-, hsome, -⟩ := hash_loop_some env seed fuel i0 i x y hret
  obtain ⟨hx, z, hz, hy⟩ := hashStep_some env seed i (x, y) hsome
  have hx' : x = (env.sponge seed (env.from_canonical_u32 (i % 2 ^ 32))).1 := hx
  have hy' : y = if env.first_canonical_bit
      (env.sponge seed (env.from_canonical_u32 (i % 2 ^ 32))).2 then -z else z := hy
  have hz' : env.square_root (x ^ 3 + env.A * x + env.Bcoeff) = some z := hz
  have hzz := hsqrt _ z hz'
  refine ⟨?_, hx', z, hz', hy'⟩
  rw [hy']
  by_cases hneg : env.first_canonical_bit
      (env.sponge seed (env.from_canonical_u32 (i % 2 ^ 32))).2 = true
  · rw [if_pos hneg]
    calc (-z) ^ 2 = z * z := by ring
      _ = x ^ 3 + env.A * x + env.Bcoeff := hzz
  · rw [if_neg hneg]
    calc z ^ 2 = z * z := by ring
      _ = x ^ 3 + env.A * x + env.Bcoeff := hzz

/-- Witness for C5: a concrete toy curve over `ZMod 5` on which the loop
returns at the first iteration with the point `(0, 1)` on `y² = x³ + 1`. -/
theorem hash_point_on_curve_witness :
    (1 : ZMod 5) ^ 2 = (0 : ZMod 5) ^ 3 + demoEnv.A * 0 + demoEnv.Bcoeff ∧
    (0 : ZMod 5) = (demoEnv.sponge 0 (demoEnv.from_canonical_u32 (0 % 2 ^ 32))).1 ∧
    ∃ z, demoEnv.square_root ((0 : ZMod 5) ^ 3 + demoEnv.A * 0 + demoEnv.Bcoeff) = some z ∧
      (1 : ZMod 5) = if demoEnv.first_canonical_bit
          (demoEnv.sponge 0 (demoEnv.from_canonical_u32 (0 % 2 ^ 32))).2
        then -z else z :=
  hash_to_curve_point_on_curve demoEnv 0 1 0 0 0 1 (by decide) (by decide)

/-- C9: the rejection loop enforces no upper bound on the counter: it
terminates exactly when some iteration's candidate has a square root, it
returns at the least such counter value, and when no iteration succeeds it
never returns under any amount of fuel. -/
theorem hash_to_curve_rejection_loop_termination {F : Type} [CommRing F]
    (env : HashEnv F) (seed : F) :
    ((∃ fuel r, hash_base_field_to_curve env seed fuel 0 = some r) ↔
      ∃ i, (hashStep env seed i).isSome = true) ∧
    (∀ fuel i x y, hash_base_field_to_curve env seed fuel 0 = some (i, x, y) →
      (hashStep env seed i).isSome = true ∧ ∀ j, j < i → hashStep env seed j = none) ∧
    ((∀ i, hashStep env seed i = none) →
      ∀ fuel, hash_base_field_to_curve env seed fuel 0 = none) := by
  refine ⟨⟨?_, ?_⟩, ?_, ?_⟩
  · rintro ⟨fuel, ⟨i, x, y⟩, h⟩
    obtain ⟨-, hsome, -⟩ := hash_loop_some env seed fuel 0 i x y h
    exact ⟨i, by rw [hsome]; rfl⟩
  · rintro ⟨i, hi⟩
    have hP : ∃ j, (hashStep env seed j).isSome = true := ⟨i, hi⟩
    have hgood : (hashStep env seed (Nat.find hP)).isSome = true := Nat.find_spec hP
    have hmin : ∀ j, j < Nat.find hP → ¬ (hashStep env seed j).isSome = true :=
      fun j hj => Nat.find_min hP hj
    have hne : hashStep env seed (0 + Nat.find hP) ≠ none := by
      rw [Nat.zero_add]
      intro hcon
      rw [hcon] at hgood
      exact Bool.noConfusion hgood
    have hnone : ∀ j, 0 ≤ j → j < 0 + Nat.find hP → hashStep env seed j = none := by
      intro j _ hj
      cases hj' : hashStep env seed j with
      | none => rfl
      | some p =>
        exact absurd (by rw [hj']; rfl) (hmin j (by omega))
    obtain ⟨r, hr⟩ := hash_loop_reaches env seed (Nat.find hP) 0 hne hnone
    exact ⟨Nat.find hP + 1, r, hr⟩
  · intro fuel i x y h
    obtain ⟨-, hsome, hnone⟩ := hash_loop_some env seed fuel 0 i x y h
    exact ⟨by rw [hsome]; rfl, fun j hj => hnone j (Nat.zero_le j) hj⟩
  · intro hall fuel
    cases h : hash_base_field_to_curve env seed fuel 0 with
    | none => rfl
    | some r =>
      obtain ⟨i, x, y⟩ := r
      obtain ⟨-, hsome, -⟩ := hash_loop_some env seed fuel 0 i x y h
      rw [hall i] at hsome
      exact Option.noConfusion hsome

/-! ## ArithmeticGate (gates/arithmetic.rs) -/

/-- C6: for `ArithmeticGate`, witness-evaluating the residual built by
`evaluate_unfiltered_recursively` through the builder's combinators yields
exactly the residual of `evaluate_unfiltered` on the same values; and when
the output wire holds the value `generate` writes — which `generate`
produces from the same constants and dependency wires — the native residual
is `[0]`. -/
theorem arithmetic_gate_native_symbolic_agree {F : Type} [CommRing F]
    (constants wires rvals bvals : ℕ → F) :
    ((ArithmeticGate.evaluate_unfiltered_recursively
        (fun k => BTarget.wit (constants k)) (fun k => BTarget.wit (wires k))
        (fun k => BTarget.wit (rvals k)) (fun k => BTarget.wit (bvals k))).map
          BTarget.evalT) =
      ArithmeticGate.evaluate_unfiltered constants wires rvals bvals ∧
    (∃ w', ArithmeticGate.generate 0 [(List.range 6).map constants]
        (depsWitness wires) = some w' ∧
      w'.get_wire ⟨0, ArithmeticGate.WIRE_OUTPUT⟩ =
        some (constants 4 * wires 0 * wires 1 + constants 5 * wires 2) ∧
      ArithmeticGate.evaluate_unfiltered constants
        (fun k => if k = 3 then constants 4 * wires 0 * wires 1 + constants 5 * wires 2
          else wires k) rvals bvals = [0]) := by
  constructor
  · rfl
  · refine ⟨PartialWitness.new.set_wire ⟨0, ArithmeticGate.WIRE_OUTPUT⟩
      (constants 4 * wires 0 * wires 1 + constants 5 * wires 2), ?_, ?_, ?_⟩
    · rfl
    · rfl
    · have h0 : ArithmeticGate.evaluate_unfiltered constants
          (fun k => if k = 3 then constants 4 * wires 0 * wires 1 + constants 5 * wires 2
            else wires k) rvals bvals =
          [constants 4 * wires 0 * wires 1 + constants 5 * wires 2 -
            (constants 4 * wires 0 * wires 1 + constants 5 * wires 2)] := rfl
      rw [h0, sub_self]

/-- C7: `ArithmeticGate`'s `generate`, given the two row constants past the
selector prefix and its three declared dependency wires, returns a partial
witness holding exactly one assignment — the gate's own output wire, at
`const_0 · m0 · m1 + const_1 · addend` — and writes no other wire. -/
theorem arithmetic_gate_generate_frame {F : Type} [CommRing F] (index : ℕ)
    (constants : List (List F)) (row : List F) (witness : PartialWitness F)
    (c0 c1 m0 m1 ad : F)
    (hrow : constants.get? index = some row)
    (hc0 : row.get? ArithmeticGate.PREFIX.length = some c0)
    (hc1 : row.get? (ArithmeticGate.PREFIX.length + 1) = some c1)
    (hm0 : witness.get_wire ⟨index, ArithmeticGate.WIRE_MULTIPLICAND_0⟩ = some m0)
    (hm1 : witness.get_wire ⟨index, ArithmeticGate.WIRE_MULTIPLICAND_1⟩ = some m1)
    (had : witness.get_wire ⟨index, ArithmeticGate.WIRE_ADDEND⟩ = some ad) :
    ∃ result, ArithmeticGate.generate index constants witness = some result ∧
      result.get_wire ⟨index, ArithmeticGate.WIRE_OUTPUT⟩ =
        some (c0 * m0 * m1 + c1 * ad) ∧
      ∀ w : Wire, w ≠ ⟨index, ArithmeticGate.WIRE_OUTPUT⟩ →
        result.get_wire w = none := by
  refine ⟨PartialWitness.new.set_wire ⟨index, ArithmeticGate.WIRE_OUTPUT⟩
    (c0 * m0 * m1 + c1 * ad), ?_, ?_, ?_⟩
  · simp only [List.get?_eq_getElem?] at hrow hc0 hc1
    simp [ArithmeticGate.generate, hrow, hc0, hc1, hm0, hm1, had]
  · simp [PartialWitness.get_wire, PartialWitness.set_wire]
  · intro w hw
    simp [PartialWitness.get_wire, PartialWitness.set_wire, PartialWitness.new, hw]

/-- Witness for C7: gate 0 with constants row `[0, 0, 0, 0, 2, 3]` over `ℤ`
and dependency wires 5, 7, 11; `generate` writes only the output wire, with
value `2·5·7 + 3·11`. -/
theorem arithmetic_gate_generate_frame_witness :
    ∃ result, ArithmeticGate.generate 0 [[0, 0, 0, 0, 2, 3]] demoPW = some result ∧
      result.get_wire ⟨0, ArithmeticGate.WIRE_OUTPUT⟩ =
        some ((2 : ℤ) * 5 * 7 + 3 * 11) ∧
      ∀ w : Wire, w ≠ ⟨0, ArithmeticGate.WIRE_OUTPUT⟩ →
        result.get_wire w = none :=
  arithmetic_gate_generate_frame 0 [[0, 0, 0, 0, 2, 3]] [0, 0, 0, 0, 2, 3] demoPW
    2 3 5 7 11 rfl rfl rfl rfl rfl rfl

/-! ## Recursive verification circuit scaffold (plonk_recursion.rs) -/

/-- The fresh builder has an empty allocation log. -/
lemma new_allocs : RBuilder.new.allocs = [] := rfl

/-- Allocating one public input appends it to the log. -/
lemma add_public_input_allocs (b : RBuilder) :
    b.add_public_input.1.allocs = b.allocs ++ [AllocKind.publicInput] := rfl

/-- The index handed out for one public input. -/
lemma add_public_input_idx (b : RBuilder) :
    b.add_public_input.2 = b.allocs.length := rfl

/-- Allocating one circuit input appends it to the log. -/
lemma add_circuit_input_allocs (b : RBuilder) :
    b.add_circuit_input.1.allocs = b.allocs ++ [AllocKind.circuitInput] := rfl

/-- The index handed out for one circuit input. -/
lemma add_circuit_input_idx (b : RBuilder) :
    b.add_circuit_input.2 = b.allocs.length := rfl

/-- Unfolding of the public-input batch allocator. -/
lemma add_public_inputs_succ (b : RBuilder) (n : ℕ) :
    b.add_public_inputs (n + 1) =
      (((⟨b.allocs ++ [AllocKind.publicInput]⟩ : RBuilder).add_public_inputs n).1,
        b.allocs.length ::
          ((⟨b.allocs ++ [AllocKind.publicInput]⟩ : RBuilder).add_public_inputs n).2) := rfl

/-- The batch allocator appends `n` public inputs and returns the next `n`
indices in order. -/
lemma add_public_inputs_spec (n : ℕ) : ∀ b : RBuilder,
    (b.add_public_inputs n).1.allocs =
        b.allocs ++ List.replicate n AllocKind.publicInput ∧
      (b.add_public_inputs n).2 = List.range' b.allocs.length n := by
  induction n with
  | zero => intro b; exact ⟨by simp [RBuilder.add_public_inputs], rfl⟩
  | succ m ih =>
    intro b
    rw [add_public_inputs_succ]
    obtain ⟨h1, h2⟩ := ih ⟨b.allocs ++ [AllocKind.publicInput]⟩
    constructor
    · rw [h1]
      simp [List.append_assoc, List.replicate_succ]
    · rw [h2, List.range'_succ]
      simp

/-- Unfolding of the circuit-input loop. -/
lemma circuitInputLoop_succ (b : RBuilder) (n : ℕ) :
    circuitInputLoop b (n + 1) =
      ((circuitInputLoop (⟨b.allocs ++ [AllocKind.circuitInput]⟩ : RBuilder) n).1,
        b.allocs.length ::
          (circuitInputLoop (⟨b.allocs ++ [AllocKind.circuitInput]⟩ : RBuilder) n).2) := rfl

/-- The circuit-input loop appends `n` circuit inputs and returns the next
`n` indices in order. -/
lemma circuitInputLoop_spec (n : ℕ) : ∀ b : RBuilder,
    (circuitInputLoop b n).1.allocs =
        b.allocs ++ List.replicate n AllocKind.circuitInput ∧
      (circuitInputLoop b n).2 = List.range' b.allocs.length n := by
  induction n with
  | zero => intro b; exact ⟨by simp [circuitInputLoop], rfl⟩
  | succ m ih =>
    intro b
    rw [circuitInputLoop_succ]
    obtain ⟨h1, h2⟩ := ih ⟨b.allocs ++ [AllocKind.circuitInput]⟩
    constructor
    · rw [h1]
      simp [List.append_assoc, List.replicate_succ]
    · rw [h2, List.range'_succ]
      simp

/-- Unfolding of the interleaved left/right commitment loop. -/
lemma lrLoop_succ (b : RBuilder) (n : ℕ) :
    lrLoop b (n + 1) =
      ((lrLoop (⟨(b.allocs ++ [AllocKind.circuitInput]) ++ [AllocKind.circuitInput]⟩ :
          RBuilder) n).1,
        b.allocs.length ::
          (lrLoop (⟨(b.allocs ++ [AllocKind.circuitInput]) ++ [AllocKind.circuitInput]⟩ :
            RBuilder) n).2.1,
        (b.allocs ++ [AllocKind.circuitInput]).length ::
          (lrLoop (⟨(b.allocs ++ [AllocKind.circuitInput]) ++ [AllocKind.circuitInput]⟩ :
            RBuilder) n).2.2) := rfl

/-- The interleaved loop appends `2n` circuit inputs; the left commitments
get the even offsets and the right commitments the odd ones. -/
lemma lrLoop_spec (n : ℕ) : ∀ b : RBuilder,
    (lrLoop b n).1.allocs =
        b.allocs ++ List.replicate (2 * n) AllocKind.circuitInput ∧
      (lrLoop b n).2.1 = List.range' b.allocs.length n 2 ∧
      (lrLoop b n).2.2 = List.range' (b.allocs.length + 1) n 2 := by
  induction n with
  | zero => intro b; exact ⟨by simp [lrLoop], rfl, rfl⟩
  | succ m ih =>
    intro b
    rw [lrLoop_succ]
    obtain ⟨h1, h2, h3⟩ := ih
      ⟨(b.allocs ++ [AllocKind.circuitInput]) ++ [AllocKind.circuitInput]⟩
    refine ⟨?_, ?_, ?_⟩
    · rw [h1]
      rw [show 2 * (m + 1) = 2 * m + 1 + 1 by ring, List.replicate_succ,
        List.replicate_succ]
      simp [List.append_assoc]
    · rw [h2, List.range'_succ]
      simp
    · rw [h3, List.range'_succ]
      simp

/-- Log of the public-input batch allocator, as a rewrite rule. -/
lemma add_public_inputs_allocs (b : RBuilder) (n : ℕ) :
    (b.add_public_inputs n).1.allocs =
      b.allocs ++ List.replicate n AllocKind.publicInput :=
  (add_public_inputs_spec n b).1

/-- Indices of the public-input batch allocator, as a rewrite rule. -/
lemma add_public_inputs_targets (b : RBuilder) (n : ℕ) :
    (b.add_public_inputs n).2 = List.range' b.allocs.length n :=
  (add_public_inputs_spec n b).2

/-- Log of the circuit-input loop, as a rewrite rule. -/
lemma circuitInputLoop_allocs (b : RBuilder) (n : ℕ) :
    (circuitInputLoop b n).1.allocs =
      b.allocs ++ List.replicate n AllocKind.circuitInput :=
  (circuitInputLoop_spec n b).1

/-- Indices of the circuit-input loop, as a rewrite rule. -/
lemma circuitInputLoop_targets (b : RBuilder) (n : ℕ) :
    (circuitInputLoop b n).2 = List.range' b.allocs.length n :=
  (circuitInputLoop_spec n b).2

/-- Log of the interleaved loop, as a rewrite rule. -/
lemma lrLoop_allocs (b : RBuilder) (n : ℕ) :
    (lrLoop b n).1.allocs = b.allocs ++ List.replicate (2 * n) AllocKind.circuitInput :=
  (lrLoop_spec n b).1

/-- Left indices of the interleaved loop, as a rewrite rule. -/
lemma lrLoop_left (b : RBuilder) (n : ℕ) :
    (lrLoop b n).2.1 = List.range' b.allocs.length n 2 :=
  (lrLoop_spec n b).2.1

/-- Right indices of the interleaved loop, as a rewrite rule. -/
lemma lrLoop_right (b : RBuilder) (n : ℕ) :
    (lrLoop b n).2.2 = List.range' (b.allocs.length + 1) n 2 :=
  (lrLoop_spec n b).2.2

/-- Two adjacent blocks of the same element merge inside an append chain. -/
lemma replicate_merge {α : Type} (a b : ℕ) (x : α) (l : List α) :
    List.replicate a x ++ (List.replicate b x ++ l) =
      List.replicate (a + b) x ++ l := by
  rw [← List.append_assoc, ← List.replicate_add]

/-- C8: `recursive_verification_circuit` returns exactly `NUM_WIRES` wire
commitments, one permutation commitment, the configured number of quotient
commitments and `degree_pow` left/right Halo commitment pairs; the builder
log holds first the public inputs (constants, wire evaluations, one Z
evaluation, quotient evaluations, `degree_pow` challenges, one hash) and
then the circuit inputs in the order wires, Z, quotient, and interleaved
left/right pairs (left at even offsets, right at odd offsets). -/
theorem recursive_verification_circuit_shape (nc nw q d : ℕ) :
    (recursive_verification_circuit nc nw q d).c_wires.length = nw ∧
    (recursive_verification_circuit nc nw q d).c_t.length = q ∧
    (recursive_verification_circuit nc nw q d).l_i.length = d ∧
    (recursive_verification_circuit nc nw q d).r_i.length = d ∧
    (recursive_verification_circuit nc nw q d).c_wires =
      List.range' (nc + nw + 1 + q + d + 1) nw ∧
    (recursive_verification_circuit nc nw q d).c_z = nc + nw + 1 + q + d + 1 + nw ∧
    (recursive_verification_circuit nc nw q d).c_t =
      List.range' (nc + nw + 1 + q + d + 1 + nw + 1) q ∧
    (recursive_verification_circuit nc nw q d).l_i =
      List.range' (nc + nw + 1 + q + d + 1 + nw + 1 + q) d 2 ∧
    (recursive_verification_circuit nc nw q d).r_i =
      List.range' (nc + nw + 1 + q + d + 1 + nw + 1 + q + 1) d 2 ∧
    (recursive_verification_circuit nc nw q d).circuit.allocs =
      List.replicate (nc + nw + 1 + q + d + 1) AllocKind.publicInput ++
        List.replicate (nw + 1 + q + 2 * d) AllocKind.circuitInput := by
  have hw : (recursive_verification_circuit nc nw q d).c_wires =
      (circuitInputLoop
        ((((((RBuilder.new.add_public_inputs nc).1.add_public_inputs
          nw).1.add_public_input).1.add_public_inputs q).1.add_public_inputs
          d).1.add_public_input).1 nw).2 := rfl
  have hz : (recursive_verification_circuit nc nw q d).c_z =
      ((circuitInputLoop
        ((((((RBuilder.new.add_public_inputs nc).1.add_public_inputs
          nw).1.add_public_input).1.add_public_inputs q).1.add_public_inputs
          d).1.add_public_input).1 nw).1.add_circuit_input).2 := rfl
  have ht : (recursive_verification_circuit nc nw q d).c_t =
      (circuitInputLoop ((circuitInputLoop
        ((((((RBuilder.new.add_public_inputs nc).1.add_public_inputs
          nw).1.add_public_input).1.add_public_inputs q).1.add_public_inputs
          d).1.add_public_input).1 nw).1.add_circuit_input).1 q).2 := rfl
  have hl : (recursive_verification_circuit nc nw q d).l_i =
      (lrLoop (circuitInputLoop ((circuitInputLoop
        ((((((RBuilder.new.add_public_inputs nc).1.add_public_inputs
          nw).1.add_public_input).1.add_public_inputs q).1.add_public_inputs
          d).1.add_public_input).1 nw).1.add_circuit_input).1 q).1 d).2.1 := rfl
  have hr : (recursive_verification_circuit nc nw q d).r_i =
      (lrLoop (circuitInputLoop ((circuitInputLoop
        ((((((RBuilder.new.add_public_inputs nc).1.add_public_inputs
          nw).1.add_public_input).1.add_public_inputs q).1.add_public_inputs
          d).1.add_public_input).1 nw).1.add_circuit_input).1 q).1 d).2.2 := rfl
  have hc : (recursive_verification_circuit nc nw q d).circuit.allocs =
      (lrLoop (circuitInputLoop ((circuitInputLoop
        ((((((RBuilder.new.add_public_inputs nc).1.add_public_inputs
          nw).1.add_public_input).1.add_public_inputs q).1.add_public_inputs
          d).1.add_public_input).1 nw).1.add_circuit_input).1 q).1 d).1.allocs := rfl
  rw [hw, hz, ht, hl, hr, hc]
  simp only [circuitInputLoop_targets, circuitInputLoop_allocs, lrLoop_left,
    lrLoop_right, lrLoop_allocs, add_circuit_input_allocs, add_circuit_input_idx,
    add_public_input_allocs, add_public_inputs_allocs, new_allocs, List.nil_append,
    List.append_assoc, List.length_append, List.length_replicate, List.length_range',
    List.length_cons, List.length_nil]
  refine ⟨trivial, trivial, trivial, trivial, ?_, by omega, ?_, ?_, ?_, ?_⟩
  · congr 1
    omega
  · congr 1
    omega
  · congr 1
    omega
  · congr 1
    omega
  · simp only [show [AllocKind.publicInput] = List.replicate 1 AllocKind.publicInput
        from rfl,
      show [AllocKind.circuitInput] = List.replicate 1 AllocKind.circuitInput from rfl,
      replicate_merge, ← List.replicate_add]
    congr 1
    · congr 1
      omega
    · congr 1
      omega

end Plonky
